import Mathlib

/-
Verification development for the rename planning/execution engine
(src/core of the rename_tool repository).

Embedding conventions:
- Python `str` is modelled by Lean `String` (a list of Unicode scalars).
  Python `str.casefold`/`str.lower` and the case folding used by
  `re.IGNORECASE` are modelled by ASCII `Char.toLower` mapping; all
  statements and witnesses stay in the ASCII range.
- Python `pathlib.Path` values that the engine builds are always
  `directory / name`, modelled by the pair `FsPath` of the directory
  string and the file name.  `str(path)` is modelled as
  `dir ++ "/" ++ name` (posix rendering).
- Filesystem reads (`get_existing_names`) take the disk content as an
  explicit function `disk : String -> List String` from a directory to
  the names of the files it holds.
- Python exceptions escaping a function are modelled by `Option`
  (`none` = the call raised).
- Python `set` objects on which only membership, add, update and
  difference are used are modelled by `List` with membership semantics
  (duplicates are unobservable).
- `float` mtime/ctime and `int` sizes are modelled by `Int`; only their
  ordering is used by the engine.
-/

/-! ## Basic string helpers -/

/-- ASCII lower-casing of a string; model of Python `str.lower`
and `str.casefold` (the engine only relies on it being a canonical
case-folding map). -/
def pyLower (s : String) : String := String.mk (s.data.map Char.toLower)

/-- ASCII upper-casing of a string; model of Python `str.upper`. -/
def pyUpper (s : String) : String := String.mk (s.data.map Char.toUpper)

/-- Lexicographic comparison of char lists by code point; model of
Python string `<=`. -/
def charsLe : List Char → List Char → Bool
  | [], _ => true
  | _ :: _, [] => false
  | a :: as, b :: bs => if a = b then charsLe as bs else decide (a.toNat < b.toNat)

/-- Model of Python string `<=` (code-point lexicographic). -/
def strLeB (a b : String) : Bool := charsLe a.data b.data

/-- Index of the last occurrence of a dot, model of `name.rfind(".")`
restricted to a found/not-found answer. -/
def lastIndexOfDot : List Char → Option Nat
  | [] => none
  | c :: cs =>
    match lastIndexOfDot cs with
    | some i => some (i + 1)
    | none => if c = '.' then some 0 else none

/-- Split a char list at every occurrence of a separator (model of
Python `str.split` with a one-char separator). -/
def splitOnChar (sep : Char) : List Char → List (List Char)
  | [] => [[]]
  | c :: cs =>
    let r := splitOnChar sep cs
    if c = sep then [] :: r
    else
      match r with
      | [] => [[c]]
      | h :: t => (c :: h) :: t

/-- Final path component of a string, model of posix
`pathlib.PurePath(s).name`: split on the separator, drop empty and
single-dot components, take the last one. -/
def pyPathName (s : String) : String :=
  let comps := (splitOnChar '/' s.data).map String.mk
  (comps.filter (fun c => decide (c ≠ "" ∧ c ≠ "."))).getLastD ""

/-- Model of `pathlib.PurePath(s).stem`: the final component with its
last extension removed (an extension exists when the last dot of the
component is at an index i with 0 < i < len - 1). -/
def pathStem (s : String) : String :=
  let nm := pyPathName s
  match lastIndexOfDot nm.data with
  | some i => if 0 < i ∧ i < nm.data.length - 1 then String.mk (nm.data.take i) else nm
  | none => nm

/-- Model of `pathlib.PurePath(s).suffix`: the last extension of the
final component, or the empty string. -/
def pathSuffix (s : String) : String :=
  let nm := pyPathName s
  match lastIndexOfDot nm.data with
  | some i => if 0 < i ∧ i < nm.data.length - 1 then String.mk (nm.data.drop i) else ""
  | none => ""

/-- Model of Python `str.zfill`: left-pad with zeros to the requested
width, keeping a leading sign in front of the padding. -/
def zfill (s : String) (width : Nat) : String :=
  if width ≤ s.data.length then s
  else
    match s.data with
    | '-' :: rest => String.mk ('-' :: (List.replicate (width - s.data.length) '0' ++ rest))
    | '+' :: rest => String.mk ('+' :: (List.replicate (width - s.data.length) '0' ++ rest))
    | l => String.mk (List.replicate (width - l.length) '0' ++ l)

/-- Pair every element with its index, model of Python `enumerate`. -/
def enumIdx {α : Type} : Nat → List α → List (α × Nat)
  | _, [] => []
  | n, a :: as => (a, n) :: enumIdx (n + 1) as

/-- Stable insertion used by `pySorted`. -/
def insertStable {α : Type} (le : α → α → Bool) (x : α) : List α → List α
  | [] => [x]
  | y :: ys => if le x y then x :: y :: ys else y :: insertStable le x ys

/-- Stable sort by a boolean total preorder; model of Python `sorted`
(which is a stable sort).  Elements are inserted from the right, so an
element is placed before every later element whose key ties with it. -/
def pySorted {α : Type} (le : α → α → Bool) (l : List α) : List α :=
  l.foldr (insertStable le) []

/-! ## text_match.py -/

/-- Strip a prefix of `t` matching the pattern under the character
comparison `eqc`; returns the rest of `t` on a match. -/
def stripEqPrefix (eqc : Char → Char → Bool) : List Char → List Char → Option (List Char)
  | [], t => some t
  | _ :: _, [] => none
  | p :: ps, c :: cs => if eqc p c then stripEqPrefix eqc ps cs else none

/-- One item of a compiled `re.sub` replacement template: a literal
character, or a reference to group 0 (the whole match). -/
inductive TItem where
  | lit (c : Char)
  | group0
deriving DecidableEq, Repr

def isOctDigit (c : Char) : Bool := decide ('0' ≤ c ∧ c ≤ '7')

def isAsciiLetter (c : Char) : Bool :=
  decide (('a' ≤ c ∧ c ≤ 'z') ∨ ('A' ≤ c ∧ c ≤ 'Z'))

def octVal (c : Char) : Nat := c.toNat - 48

def natOfDigits (l : List Char) : Nat :=
  l.foldl (fun a c => a * 10 + (c.toNat - 48)) 0

/-- The fixed escape table of `re`'s template parser
(`\a \b \f \n \r \t \v \\`). -/
def escChar : Char → Option Char
  | 'a' => some (Char.ofNat 7)
  | 'b' => some (Char.ofNat 8)
  | 'f' => some (Char.ofNat 12)
  | 'n' => some (Char.ofNat 10)
  | 'r' => some (Char.ofNat 13)
  | 't' => some (Char.ofNat 9)
  | 'v' => some (Char.ofNat 11)
  | '\\' => some '\\'
  | _ => none

/-- Model of CPython `re`'s replacement template parser
(`sre_parse.parse_template`) for a pattern with zero capture groups,
as used by `re.sub` on the replacement string.  `none` models the
`re.error` exception ("bad escape", "invalid group reference", ...).
Fuel-driven so that it is structurally recursive; each step consumes
at least one character, so `fuel = length` always suffices. -/
def parseTemplateFuel : Nat → List Char → Option (List TItem)
  | _, [] => some []
  | 0, _ :: _ => none
  | Nat.succ fuel, c0 :: rest0 =>
    if c0 = '\\' then
      match rest0 with
      | [] => none
      | c :: rest2 =>
        if c = 'g' then
          match rest2 with
          | '<' :: rest3 =>
            let name := rest3.takeWhile (fun ch => decide (ch ≠ '>'))
            match rest3.dropWhile (fun ch => decide (ch ≠ '>')) with
            | '>' :: rest5 =>
              if name ≠ [] ∧ name.all Char.isDigit ∧ natOfDigits name = 0 then
                (parseTemplateFuel fuel rest5).map (fun ts => TItem.group0 :: ts)
              else none
            | _ => none
          | _ => none
        else if c = '0' then
          match rest2 with
          | d1 :: rest3 =>
            if isOctDigit d1 then
              match rest3 with
              | d2 :: rest4 =>
                if isOctDigit d2 then
                  (parseTemplateFuel fuel rest4).map
                    (fun ts => TItem.lit (Char.ofNat (octVal d1 * 8 + octVal d2)) :: ts)
                else
                  (parseTemplateFuel fuel rest3).map
                    (fun ts => TItem.lit (Char.ofNat (octVal d1)) :: ts)
              | [] =>
                (parseTemplateFuel fuel []).map
                  (fun ts => TItem.lit (Char.ofNat (octVal d1)) :: ts)
            else
              (parseTemplateFuel fuel rest2).map
                (fun ts => TItem.lit (Char.ofNat 0) :: ts)
          | [] =>
            (parseTemplateFuel fuel []).map (fun ts => TItem.lit (Char.ofNat 0) :: ts)
        else if c.isDigit then
          match rest2 with
          | d2 :: rest3 =>
            if d2.isDigit then
              match rest3 with
              | d3 :: rest4 =>
                if isOctDigit c ∧ isOctDigit d2 ∧ isOctDigit d3 then
                  let v := octVal c * 64 + octVal d2 * 8 + octVal d3
                  if 255 < v then none
                  else (parseTemplateFuel fuel rest4).map (fun ts => TItem.lit (Char.ofNat v) :: ts)
                else none
              | [] => none
            else none
          | [] => none
        else
          match escChar c with
          | some e => (parseTemplateFuel fuel rest2).map (fun ts => TItem.lit e :: ts)
          | none =>
            if isAsciiLetter c then none
            else
              (parseTemplateFuel fuel rest2).map
                (fun ts => TItem.lit '\\' :: TItem.lit c :: ts)
    else
      (parseTemplateFuel fuel rest0).map (fun ts => TItem.lit c0 :: ts)

/-- Parse a `re.sub` replacement string into template items. -/
def parseTemplate (repl : List Char) : Option (List TItem) :=
  parseTemplateFuel repl.length repl

/-- Render a parsed template against the text matched by the pattern. -/
def expandT (items : List TItem) (matched : List Char) : List Char :=
  items.flatMap (fun it =>
    match it with
    | TItem.lit c => [c]
    | TItem.group0 => matched)

/-- Left-to-right non-overlapping scan-and-replace over a char list.
At each position the pattern is compared under `eqc`; on a match the
rendered template is emitted and scanning resumes after the match.
Fuel-driven (each step consumes at least one character of `t` when the
pattern is non-empty, so `length + 1` fuel suffices); models both
`str.replace` (exact `eqc`, literal items) and the scanning loop of
`re.sub` on an escaped literal pattern. -/
def subFuel (eqc : Char → Char → Bool) (old : List Char) (items : List TItem) :
    Nat → List Char → List Char
  | 0, t => t
  | Nat.succ _, [] => []
  | Nat.succ fuel, c :: rest =>
    match stripEqPrefix eqc old (c :: rest) with
    | some rest2 => expandT items ((c :: rest).take old.length) ++ subFuel eqc old items fuel rest2
    | none => c :: subFuel eqc old items fuel rest

/-- Case-insensitive character comparison used by the model of
`re.IGNORECASE` literal matching. -/
def ciCharEq (a b : Char) : Bool := decide (a.toLower = b.toLower)

/-- Model of `replace_text` (text_match.py).  Empty `old` returns the
text unchanged.  The case-sensitive branch is Python `str.replace`
(left-to-right, non-overlapping, the replacement inserted literally).
The case-insensitive branch is `re.sub(re.escape(old), new, text)` with
`re.IGNORECASE`: the replacement string is first compiled as a template
(`none` models the `re.error` this can raise), then each match is
substituted by the rendered template. -/
def replace_text (text old new : String) (case_sensitive : Bool) : Option String :=
  if old = "" then some text
  else if case_sensitive then
    some (String.mk (subFuel (fun a b => decide (a = b)) old.data
      (new.data.map TItem.lit) (text.data.length + 1) text.data))
  else
    match parseTemplate new.data with
    | none => none
    | some items =>
      some (String.mk (subFuel ciCharEq old.data items (text.data.length + 1) text.data))

def invalid_chars : List Char := ['<', '>', ':', '"', '/', '\\', '|', '?', '*']

def reserved_names : List String :=
  ["CON", "PRN", "AUX", "NUL",
   "COM1", "COM2", "COM3", "COM4", "COM5", "COM6", "COM7", "COM8", "COM9",
   "LPT1", "LPT2", "LPT3", "LPT4", "LPT5", "LPT6", "LPT7", "LPT8", "LPT9"]

/-- Model of `is_valid_filename` (text_match.py): returns the verdict
and the reason on failure. -/
def is_valid_filename (name : String) : Bool × Option String :=
  if name = "" then (false, some "Filename cannot be empty")
  else
    match invalid_chars.find? (fun c => name.data.contains c) with
    | some c => (false, some ("Filename contains invalid character: " ++ String.mk [c]))
    | none =>
      if name.data.getLast? = some ' ' ∨ name.data.getLast? = some '.' then
        (false, some "Filename cannot end with space or dot")
      else
        let name_upper := String.mk ((pyUpper name).data.takeWhile (fun c => decide (c ≠ '.')))
        if name_upper ∈ reserved_names then
          (false, some ("Filename is a Windows reserved name: " ++ name_upper))
        else if 255 < name.data.length then
          (false, some "Filename exceeds 255 characters")
        else (true, none)

/-! ## models_fs.py -/

/-- A filesystem path as built by the engine: a parent directory and a
file name inside it (`directory / name`). -/
structure FsPath where
  dir : String
  name : String
deriving DecidableEq, Repr

/-- Posix string rendering of a path, model of `str(path)`. -/
def pathStr (p : FsPath) : String := p.dir ++ "/" ++ p.name

/-- File descriptor snapshot (`FileItem`). -/
structure FileItem where
  path : FsPath
  name : String
  stem : String
  suffix : String
  size : Int
  mtime : Int
  ctime : Int
deriving DecidableEq, Repr

/-- Sort key enumeration (`SortKey`). -/
inductive SortKey where
  | mtime
  | size
  | name
  | ctime
deriving DecidableEq, Repr

/-- A single rename operation (`RenameOp`). -/
structure RenameOp where
  src : FsPath
  dst : FsPath
  note : String
deriving DecidableEq, Repr

/-- Whether source and destination are the same (`RenameOp.is_same`). -/
def RenameOp.is_same (op : RenameOp) : Bool := decide (op.src = op.dst)

/-- Rename options; of the source's fields only the case-sensitivity
policy influences the planning and execution functions modelled here
(the conflict policy is fixed to suffix numbering by the generators,
and traversal/sequence defaults are passed explicitly). -/
structure RenameOptions where
  case_insensitive_detect : Bool
deriving DecidableEq, Repr

/-- Batch rename plan (`RenamePlan`). -/
structure RenamePlan where
  ops : List RenameOp
  warnings : List String
  errors : List String
  options : RenameOptions
deriving DecidableEq, Repr

/-- Valid operations: all ops excluding no-ops (`RenamePlan.valid_ops`). -/
def RenamePlan.valid_ops (p : RenamePlan) : List RenameOp :=
  p.ops.filter (fun op => decide (op.src ≠ op.dst))

def RenamePlan.add_op (p : RenamePlan) (src dst : FsPath) (note : String) : RenamePlan :=
  { p with ops := p.ops ++ [⟨src, dst, note⟩] }

def RenamePlan.add_warning (p : RenamePlan) (msg : String) : RenamePlan :=
  { p with warnings := p.warnings ++ [msg] }

def RenamePlan.add_error (p : RenamePlan) (msg : String) : RenamePlan :=
  { p with errors := p.errors ++ [msg] }

/-- Model of `normalize_for_comparison`: case-fold when the policy is
case-insensitive, identity otherwise. -/
def normalize_for_comparison (name : String) (case_insensitive : Bool) : String :=
  if case_insensitive then pyLower name else name

/-! ## sort_rules.py -/

/-- Boolean rendering of the sort-key comparison of `get_sort_key`:
primary key is the criterion value, tie-break is the case-folded name
(lexicographic tuple comparison). -/
def sortKeyLe (k : SortKey) (a b : FileItem) : Bool :=
  match k with
  | SortKey.mtime =>
    if a.mtime = b.mtime then strLeB (pyLower a.name) (pyLower b.name)
    else decide (a.mtime < b.mtime)
  | SortKey.size =>
    if a.size = b.size then strLeB (pyLower a.name) (pyLower b.name)
    else decide (a.size < b.size)
  | SortKey.name => strLeB (pyLower a.name) (pyLower b.name)
  | SortKey.ctime =>
    if a.ctime = b.ctime then strLeB (pyLower a.name) (pyLower b.name)
    else decide (a.ctime < b.ctime)

/-- Model of `sort_files`: stable sort by the chosen key; `reverse`
gives the stable descending order (Python `sorted(reverse=True)`). -/
def sort_files (files : List FileItem) (sort_by : SortKey) (reverse : Bool) : List FileItem :=
  if reverse then pySorted (fun a b => sortKeyLe sort_by b a) files
  else pySorted (fun a b => sortKeyLe sort_by a b) files

/-- Model of `sort_by_path`: stable sort by the case-folded full path
string. -/
def sort_by_path (files : List FileItem) : List FileItem :=
  pySorted (fun a b => strLeB (pyLower (pathStr a.path)) (pyLower (pathStr b.path))) files

/-! ## scan_files.py -/

/-- Model of `get_existing_names`: the names on disk in a directory,
case-folded when the policy is case-insensitive.  The disk content is
an explicit parameter (the source reads the directory; a missing
directory corresponds to `disk d = []`). -/
def get_existing_names (disk : String → List String) (directory : String)
    (case_insensitive : Bool) : List String :=
  (disk directory).map (fun n => if case_insensitive then pyLower n else n)

/-! ## plan_rename.py: ConflictResolver -/

/-- Point update of a directory-indexed table, model of assignment to
one key of the `occupied` dict. -/
def updFun (f : String → List String) (d : String) (v : List String) :
    String → List String :=
  fun x => if x = d then v else f x

/-- Conflict resolver state: case policy and the per-directory occupied
name sets (normalized names; list membership models set membership). -/
structure ConflictResolver where
  case_insensitive : Bool
  occupied : String → List String

/-- Normalization used by the resolver (`ConflictResolver._normalize`). -/
def ConflictResolver.nrm (r : ConflictResolver) (name : String) : String :=
  normalize_for_comparison name r.case_insensitive

/-- Model of `ConflictResolver.add_existing`. -/
def ConflictResolver.add_existing (r : ConflictResolver) (directory : String)
    (names : List String) : ConflictResolver :=
  { r with occupied :=
      updFun r.occupied directory (r.occupied directory ++ names.map r.nrm) }

/-- Model of `ConflictResolver.remove_participating` (set difference). -/
def ConflictResolver.remove_participating (r : ConflictResolver) (directory : String)
    (names : List String) : ConflictResolver :=
  let keep := (r.occupied directory).filter (fun x => decide (x ∉ names.map r.nrm))
  { r with occupied := updFun r.occupied directory keep }

/-- Model of `ConflictResolver.is_occupied`. -/
def ConflictResolver.is_occupied (r : ConflictResolver) (directory : String)
    (name : String) : Bool :=
  decide (r.nrm name ∈ r.occupied directory)

/-- Model of `ConflictResolver.mark_occupied`. -/
def ConflictResolver.mark_occupied (r : ConflictResolver) (directory : String)
    (name : String) : ConflictResolver :=
  { r with occupied := updFun r.occupied directory (r.nrm name :: r.occupied directory) }

/-- The candidate loop of `ConflictResolver.resolve`: try
`stem_n ++ suffix` for n, n+1, ... while `fuel` attempts remain.
Called with n = 1 and fuel = 10000, this tries exactly the candidates
n = 1..10000; `none` models the `RuntimeError` raised past the safety
limit. -/
def ConflictResolver.resolveFrom (r : ConflictResolver) (directory stem suf : String) :
    Nat → Nat → Option (String × Bool × ConflictResolver)
  | _, 0 => none
  | n, Nat.succ fuel =>
    let candidate := stem ++ "_" ++ toString n ++ suf
    if r.is_occupied directory candidate then
      r.resolveFrom directory stem suf (n + 1) fuel
    else some (candidate, true, r.mark_occupied directory candidate)

/-- Model of `ConflictResolver.resolve`: claim the desired name when it
is free, otherwise append `_1`, `_2`, ... before the extension (stem
and suffix of the desired name taken via `pathlib`). -/
def ConflictResolver.resolve (r : ConflictResolver) (directory desired_name : String) :
    Option (String × Bool × ConflictResolver) :=
  if r.is_occupied directory desired_name then
    r.resolveFrom directory (pathStem desired_name) (pathSuffix desired_name) 1 10000
  else some (desired_name, false, r.mark_occupied directory desired_name)

/-! ## plan_rename.py: plan generators -/

/-- Insert a file into the directory-grouped list, preserving first
appearance order of directories and the order of files inside each
group; model of appending to a `defaultdict(list)` entry. -/
def insertGrouped : List (String × List FileItem) → String → FileItem →
    List (String × List FileItem)
  | [], d, f => [(d, [f])]
  | (d2, fs) :: rest, d, f =>
    if d2 = d then (d2, fs ++ [f]) :: rest else (d2, fs) :: insertGrouped rest d f

/-- Group files by parent directory (iteration order of a Python dict:
first appearance of the key). -/
def groupByDir (files : List FileItem) : List (String × List FileItem) :=
  files.foldl (fun acc f => insertGrouped acc f.path.dir f) []

/-- The note attached to an operation whose name was changed by the
resolver. -/
def conflictNote (desired final : String) : String :=
  "conflict resolved: " ++ desired ++ " -> " ++ final

/-- The per-directory loop of `plan_replace_rename` (lines 154-176 of
plan_rename.py): compute the replaced name, skip unchanged names, skip
invalid names with a warning, resolve conflicts, append the operation.
`none` models an exception escaping the loop (`re.error` from
`replace_text`, or `RuntimeError` from the resolver). -/
def replaceDirLoop (old_str new_str : String) (case_sensitive : Bool) (directory : String) :
    List FileItem → ConflictResolver → RenamePlan → Option (ConflictResolver × RenamePlan)
  | [], r, plan => some (r, plan)
  | f :: fs, r, plan =>
    match replace_text f.name old_str new_str case_sensitive with
    | none => none
    | some new_name =>
      if new_name = f.name then
        replaceDirLoop old_str new_str case_sensitive directory fs r plan
      else
        match is_valid_filename new_name with
        | (false, err) =>
          let msg := "Skip " ++ pathStr f.path ++ ": " ++ err.getD ""
          replaceDirLoop old_str new_str case_sensitive directory fs r (plan.add_warning msg)
        | (true, _) =>
          match r.resolve directory new_name with
          | none => none
          | some (final_name, had_conflict, r2) =>
            let note := if had_conflict then conflictNote new_name final_name else ""
            replaceDirLoop old_str new_str case_sensitive directory fs r2
              (plan.add_op f.path ⟨directory, final_name⟩ note)

/-- The resolver each generator builds for one directory: seed with the
names on disk, then release the batch's own source names (lines
142-151 and 226-235 of plan_rename.py). -/
def freshResolver (disk : String → List String) (options : RenameOptions)
    (directory : String) (participating : List String) : ConflictResolver :=
  ((⟨options.case_insensitive_detect, fun _ => []⟩ :
      ConflictResolver).add_existing directory
    (get_existing_names disk directory options.case_insensitive_detect)).remove_participating
    directory participating

/-- The per-directory driver of `plan_replace_rename` (lines 138-176):
sort the directory's files by path, seed a fresh resolver with the
on-disk names, release the batch's source names, then run the loop. -/
def processGroups (disk : String → List String) (old_str new_str : String)
    (case_sensitive : Bool) (options : RenameOptions) :
    List (String × List FileItem) → RenamePlan → Option RenamePlan
  | [], plan => some plan
  | (directory, dir_files) :: rest, plan =>
    let sorted := sort_by_path dir_files
    let r2 := freshResolver disk options directory (sorted.map (fun f => f.name))
    match replaceDirLoop old_str new_str case_sensitive directory sorted r2 plan with
    | none => none
    | some (_, plan2) => processGroups disk old_str new_str case_sensitive options rest plan2

/-- Model of `plan_replace_rename`.  `none` models an exception
escaping the call. -/
def plan_replace_rename (disk : String → List String) (files : List FileItem)
    (old_str new_str : String) (case_sensitive : Bool) (options : RenameOptions) :
    Option RenamePlan :=
  let plan0 : RenamePlan := ⟨[], [], [], options⟩
  if old_str = "" then some (plan0.add_error "Replacement string cannot be empty")
  else processGroups disk old_str new_str case_sensitive options (groupByDir files) plan0

/-- First-appearance list of the distinct parent directories, model of
building the set `{f.path.parent for f in files}` (only its size and,
when it is a singleton, its unique element are consumed). -/
def uniqueDirs : List String → List String :=
  fun l => l.foldl (fun acc d => if d ∈ acc then acc else acc ++ [d]) []

/-- The desired name assigned by sequential numbering to the file at
0-based position `i` of the sorted list (lines 239-248): number string
is `start + i`, zero-padded to `padding` digits when `padding > 0`. -/
def seqDesired (start padding : Int) (pre suffix_str : String) (i : Nat) (f : FileItem) :
    String :=
  let num : Int := start + (i : Int)
  let num_str := if 0 < padding then zfill (toString num) padding.toNat else toString num
  pre ++ num_str ++ suffix_str ++ f.suffix

/-- The enumerate loop of `plan_sequence_rename` (lines 238-264). -/
def seqLoop (start padding : Int) (pre suffix_str : String) (directory : String) :
    List (FileItem × Nat) → ConflictResolver → RenamePlan →
    Option (ConflictResolver × RenamePlan)
  | [], r, plan => some (r, plan)
  | (f, i) :: rest, r, plan =>
    let new_name := seqDesired start padding pre suffix_str i f
    match is_valid_filename new_name with
    | (false, err) =>
      let msg := "Skip " ++ pathStr f.path ++ ": " ++ err.getD ""
      seqLoop start padding pre suffix_str directory rest r (plan.add_warning msg)
    | (true, _) =>
      match r.resolve directory new_name with
      | none => none
      | some (final_name, had_conflict, r2) =>
        let note := if had_conflict then conflictNote new_name final_name else ""
        seqLoop start padding pre suffix_str directory rest r2
          (plan.add_op f.path ⟨directory, final_name⟩ note)

/-- Model of `plan_sequence_rename`.  `none` models an exception
escaping the call. -/
def plan_sequence_rename (disk : String → List String) (files : List FileItem)
    (sort_by : SortKey) (reverse : Bool) (start padding : Int)
    (pre suffix_str : String) (options : RenameOptions) : Option RenamePlan :=
  let plan0 : RenamePlan := ⟨[], [], [], options⟩
  if files.isEmpty then some plan0
  else
    let dirs := uniqueDirs (files.map (fun f => f.path.dir))
    if 1 < dirs.length then
      some (plan0.add_error "Sequential naming can only be done in the same directory")
    else
      let directory := dirs.headD ""
      let sorted := sort_files files sort_by reverse
      let r2 := freshResolver disk options directory (files.map (fun f => f.name))
      match seqLoop start padding pre suffix_str directory (enumIdx 0 sorted) r2 plan0 with
      | none => none
      | some (_, plan2) => some plan2

/-- Model of `validate_plan`'s destination key: destinations compare
lower-cased when the plan's policy is case-insensitive. -/
def dstKey (ci : Bool) (op : RenameOp) : String × String :=
  (op.dst.dir, normalize_for_comparison op.dst.name ci)

/-! ## exec_rename.py -/

/-- Rename execution result (`RenameResult`). -/
structure RenameResult where
  success : List RenameOp
  failed : List (RenameOp × String)
  skipped : List RenameOp
deriving DecidableEq, Repr

/-- One observable filesystem side effect of `execute_rename`: an
attempted `os.rename`, or an attempted log write (`save_plan_log` /
`save_result_log`, whose content is out of scope here). -/
inductive FsAction where
  | rename (src dst : FsPath)
  | planLogWrite
  | resultLogWrite
deriving DecidableEq, Repr

/-- Oracle abstracting the live filesystem during execution: per
operation index, whether the source still exists, whether each
`os.rename` call succeeds, the random token of the temp name, and
whether the two log writes succeed. -/
structure FsOracle where
  srcExists : Nat → Bool
  phase1Ok : Nat → Bool
  phase2Ok : Nat → Bool
  restoreOk : Nat → Bool
  tempToken : Nat → String
  planLogOk : Bool
  resultLogOk : Bool

/-- Model of `_generate_temp_name`: marker prefix, unique token, the
original name, in the same directory. -/
def generate_temp_name (token : String) (original : FsPath) : FsPath :=
  ⟨original.dir, ".__tmp_rename__" ++ token ++ "__" ++ original.name⟩

/-- Phase 1 (lines 109-124): rename every operation's source to a temp
name; a missing source or a failed rename is recorded as a failure and
the operation is excluded from phase 2.  Returns the temp mapping, the
failures, and the attempted renames. -/
def runPhase1 (o : FsOracle) :
    List (RenameOp × Nat) →
    List (RenameOp × FsPath × Nat) × List (RenameOp × String) × List FsAction
  | [] => ([], [], [])
  | (op, i) :: rest =>
    let prev := runPhase1 o rest
    if o.srcExists i then
      let tp := generate_temp_name (o.tempToken i) op.src
      if o.phase1Ok i then
        ((op, tp, i) :: prev.1, prev.2.1, FsAction.rename op.src tp :: prev.2.2)
      else
        (prev.1, (op, "Phase 1 failed") :: prev.2.1, FsAction.rename op.src tp :: prev.2.2)
    else
      (prev.1, (op, "Source file does not exist") :: prev.2.1, prev.2.2)

/-- Phase 2 (lines 127-140): rename each temp name to the final name;
on failure attempt to restore the original name, recording whether the
restore succeeded.  Returns the successes, the failures, and the
attempted renames. -/
def runPhase2 (o : FsOracle) :
    List (RenameOp × FsPath × Nat) →
    List RenameOp × List (RenameOp × String) × List FsAction
  | [] => ([], [], [])
  | (op, tp, i) :: rest =>
    let prev := runPhase2 o rest
    if o.phase2Ok i then
      (op :: prev.1, prev.2.1, FsAction.rename tp op.dst :: prev.2.2)
    else if o.restoreOk i then
      (prev.1, (op, "Phase 2 failed (restored)") :: prev.2.1,
        FsAction.rename tp op.dst :: FsAction.rename tp op.src :: prev.2.2)
    else
      (prev.1, (op, "Phase 2 failed (restore also failed)") :: prev.2.1,
        FsAction.rename tp op.dst :: FsAction.rename tp op.src :: prev.2.2)

/-- The outcome of a call to `execute_rename`: the returned result
(`none` models an uncaught exception escaping the call) and the trace
of attempted filesystem side effects, in order. -/
structure ExecOutcome where
  result : Option RenameResult
  trace : List FsAction
deriving DecidableEq, Repr

/-- Model of `execute_rename` (lines 69-146).  `dry_run` previews
without side effects; `has_log_dir` says whether a log destination was
supplied.  The source checks `total == 0` first, then writes the plan
log only when a log destination is supplied and the run is not a dry
run (an exception from `save_plan_log` escapes: nothing is renamed and
no result is returned), runs the two phases, then writes the result
log when a log destination is supplied (an exception from
`save_result_log` likewise escapes, losing the result). -/
def execute_rename (plan : RenamePlan) (dry_run has_log_dir : Bool) (o : FsOracle) :
    ExecOutcome :=
  let valid_ops := plan.valid_ops
  if valid_ops.isEmpty then ⟨some ⟨[], [], []⟩, []⟩
  else if dry_run then ⟨some ⟨valid_ops, [], []⟩, []⟩
  else if has_log_dir && !o.planLogOk then ⟨none, [FsAction.planLogWrite]⟩
  else
    let pre := if has_log_dir then [FsAction.planLogWrite] else []
    let p1 := runPhase1 o (enumIdx 0 valid_ops)
    let p2 := runPhase2 o p1.1
    let res : RenameResult := ⟨p2.1, p1.2.1 ++ p2.2.1, []⟩
    if has_log_dir then
      ⟨if o.resultLogOk then some res else none,
        pre ++ p1.2.2 ++ p2.2.2 ++ [FsAction.resultLogWrite]⟩
    else ⟨some res, pre ++ p1.2.2 ++ p2.2.2⟩

/-! ## Claim-level definitions and concrete fixtures -/

/-- The candidate name the spec's resolver contract predicts for
attempt `n`: `stem_n ++ extension` of the desired name (stem and
extension via the same `pathlib` splitting the code uses). -/
def candidateName (desired : String) (n : Nat) : String :=
  pathStem desired ++ "_" ++ toString n ++ pathSuffix desired

/-- Destination paths of the plan's valid operations are pairwise
distinct under the plan's case-sensitivity policy: directories compared
byte-for-byte, names case-folded when the policy is case-insensitive. -/
def PlanDstDistinct (p : RenamePlan) : Prop :=
  p.valid_ops.Pairwise (fun a b =>
    dstKey p.options.case_insensitive_detect a ≠ dstKey p.options.case_insensitive_detect b)

/-- Concrete file fixture used by witnesses. -/
def mkItem (d nm : String) (mt : Int) : FileItem :=
  ⟨⟨d, nm⟩, nm, pathStem nm, pathSuffix nm, 0, mt, mt⟩

def wOpts : RenameOptions := ⟨true⟩

def wDiskEmpty : String → List String := fun _ => []

def wDisk1 : String → List String := fun x => if x = "d" then ["a1.txt", "b.txt"] else []

def wPlan : RenamePlan := ⟨[⟨⟨"d", "a"⟩, ⟨"d", "b"⟩, ""⟩], [], [], wOpts⟩

def wRes : RenameResult := ⟨[⟨⟨"d", "a"⟩, ⟨"d", "b"⟩, ""⟩], [], []⟩

def wOracle : FsOracle :=
  ⟨fun _ => true, fun _ => true, fun _ => true, fun _ => true, fun _ => "t", true, true⟩

def wOracleNoPlanLog : FsOracle :=
  ⟨fun _ => true, fun _ => true, fun _ => true, fun _ => true, fun _ => "t", false, true⟩

def wOracleNoResultLog : FsOracle :=
  ⟨fun _ => true, fun _ => true, fun _ => true, fun _ => true, fun _ => "t", true, false⟩

def wResolver : ConflictResolver :=
  ⟨true, fun x => if x = "p" then ["a.txt", "a_1.txt"] else []⟩

def cResolver : ConflictResolver :=
  ⟨true, fun x => if x = "p" then ["a/b.txt"] else []⟩

def wReplacePlan : RenamePlan :=
  ⟨[⟨⟨"d", "a1.txt"⟩, ⟨"d", "b.txt"⟩, ""⟩], [], [], wOpts⟩

def wSeqPlan : RenamePlan :=
  ⟨[⟨⟨"d", "a.txt"⟩, ⟨"d", "img_001.txt"⟩, ""⟩,
    ⟨⟨"d", "b.txt"⟩, ⟨"d", "img_002.txt"⟩, ""⟩], [], [], wOpts⟩

/-! ## Theorems -/

/-- C7: for every input file list, calling plan_replace_rename with an
empty old_str returns a plan whose errors list is non-empty and whose
operations list is empty. -/
theorem plan_replace_empty_old_errors (disk : String → List String) (files : List FileItem)
    (new_str : String) (case_sensitive : Bool) (options : RenameOptions) :
    ∃ p, plan_replace_rename disk files "" new_str case_sensitive options = some p ∧
      p.errors ≠ [] ∧ p.ops = [] := by
  refine ⟨⟨[], [], ["Replacement string cannot be empty"], options⟩, ?_, by simp, rfl⟩
  simp [plan_replace_rename, RenamePlan.add_error]

/-- C6: with dry_run true, execute_rename performs no filesystem action
at all (no rename, no temp name, no plan log, no result log), and the
returned result lists every valid operation of the plan as succeeded,
with empty failed and skipped lists. -/
theorem execute_rename_dry_run_pure (plan : RenamePlan) (has_log_dir : Bool) (o : FsOracle) :
    execute_rename plan true has_log_dir o = ⟨some ⟨plan.valid_ops, [], []⟩, []⟩ := by
  unfold execute_rename
  by_cases h : plan.valid_ops.isEmpty
  · rw [List.isEmpty_iff] at h
    simp [h]
  · simp [h]

/-- C10: every result actually returned by execute_rename has an empty
skipped list, in dry-run and in real execution alike. -/
theorem execute_rename_skipped_empty (plan : RenamePlan) (dry_run has_log_dir : Bool)
    (o : FsOracle) (r : RenameResult) :
    (execute_rename plan dry_run has_log_dir o).result = some r → r.skipped = [] := by
  intro h
  unfold execute_rename at h
  by_cases h1 : plan.valid_ops.isEmpty = true
  · rw [if_pos h1] at h
    dsimp only at h
    cases Option.some.inj h
    rfl
  · rw [if_neg h1] at h
    by_cases h2 : dry_run = true
    · rw [if_pos h2] at h
      dsimp only at h
      cases Option.some.inj h
      rfl
    · rw [if_neg h2] at h
      by_cases h3 : (has_log_dir && !o.planLogOk) = true
      · rw [if_pos h3] at h
        exact Option.noConfusion h
      · rw [if_neg h3] at h
        by_cases h4 : has_log_dir = true
        · rw [if_pos h4] at h
          dsimp only at h
          by_cases h5 : o.resultLogOk = true
          · rw [if_pos h5] at h
            cases Option.some.inj h
            rfl
          · rw [if_neg h5] at h
            exact Option.noConfusion h
        · rw [if_neg h4] at h
          dsimp only at h
          cases Option.some.inj h
          rfl

/-- C10 witness: a concrete execution whose returned result has an
empty skipped list. -/
theorem execute_rename_skipped_empty_witness :
    (execute_rename wPlan false false wOracle).result = some wRes ∧ wRes.skipped = [] :=
  ⟨by decide, execute_rename_skipped_empty wPlan false false wOracle wRes (by decide)⟩

/-- C3 (code_bug evidence): the source calls save_plan_log and
save_result_log without any exception handling, so a log-write failure
aborts execute_rename.  With a failing plan-log write nothing is
renamed and no result is returned; with a failing result-log write the
renames have happened but the call still returns no result. -/
theorem execute_rename_log_failure_aborts :
    execute_rename wPlan false true wOracleNoPlanLog = ⟨none, [FsAction.planLogWrite]⟩ ∧
    execute_rename wPlan false true wOracleNoResultLog =
      ⟨none,
       [FsAction.planLogWrite,
        FsAction.rename ⟨"d", "a"⟩ ⟨"d", ".__tmp_rename__t__a"⟩,
        FsAction.rename ⟨"d", ".__tmp_rename__t__a"⟩ ⟨"d", "b"⟩,
        FsAction.resultLogWrite]⟩ := by decide

/-- Exhaustion behaviour of the candidate loop: if every candidate in
the fuel window is occupied, the loop raises. -/
theorem resolveFrom_none (r : ConflictResolver) (d stem suf : String) :
    ∀ fuel n,
      (∀ k, k < fuel → r.is_occupied d (stem ++ "_" ++ toString (n + k) ++ suf) = true) →
      r.resolveFrom d stem suf n fuel = none := by
  intro fuel
  induction fuel with
  | zero => intro n _; rfl
  | succ fuel ih =>
    intro n h
    have h0 : r.is_occupied d (stem ++ "_" ++ toString n ++ suf) = true := by
      have := h 0 (Nat.succ_pos fuel)
      simpa using this
    unfold ConflictResolver.resolveFrom
    rw [if_pos h0]
    apply ih
    intro k hk
    have := h (k + 1) (Nat.succ_lt_succ hk)
    rw [show n + (k + 1) = n + 1 + k from by omega] at this
    exact this

/-- Success behaviour of the candidate loop: the first free candidate
in the fuel window is returned and claimed. -/
theorem resolveFrom_found (r : ConflictResolver) (d stem suf : String) :
    ∀ fuel n k, k < fuel →
      r.is_occupied d (stem ++ "_" ++ toString (n + k) ++ suf) = false →
      (∀ j, j < k → r.is_occupied d (stem ++ "_" ++ toString (n + j) ++ suf) = true) →
      r.resolveFrom d stem suf n fuel =
        some (stem ++ "_" ++ toString (n + k) ++ suf, true,
          r.mark_occupied d (stem ++ "_" ++ toString (n + k) ++ suf)) := by
  intro fuel
  induction fuel with
  | zero => intro n k hk; omega
  | succ fuel ih =>
    intro n k hk hfree hocc
    unfold ConflictResolver.resolveFrom
    cases k with
    | zero =>
      have hfree0 : r.is_occupied d (stem ++ "_" ++ toString n ++ suf) = false := by
        simpa using hfree
      rw [if_neg (by simp [hfree0])]
      simp
    | succ k2 =>
      have h0 : r.is_occupied d (stem ++ "_" ++ toString n ++ suf) = true := by
        have := hocc 0 (Nat.succ_pos k2)
        simpa using this
      rw [if_pos h0]
      have hfree2 : r.is_occupied d (stem ++ "_" ++ toString (n + 1 + k2) ++ suf) = false := by
        rw [show n + 1 + k2 = n + (k2 + 1) from by omega]
        exact hfree
      have hocc2 : ∀ j, j < k2 →
          r.is_occupied d (stem ++ "_" ++ toString (n + 1 + j) ++ suf) = true := by
        intro j hj
        rw [show n + 1 + j = n + (j + 1) from by omega]
        exact hocc (j + 1) (Nat.succ_lt_succ hj)
      have := ih (n + 1) k2 (Nat.lt_of_succ_lt_succ hk) hfree2 hocc2
      rw [this]
      rw [show n + 1 + k2 = n + (k2 + 1) from by omega]

/-- C5 (amended): resolve claims and returns the desired name when it
is free; otherwise it returns the candidate stem_n + extension for the
smallest n at least 1 whose candidate is free (stem and extension taken
by splitting the LAST PATH COMPONENT of the desired name at its last
extension, which is what pathlib does), and it raises when every
candidate n = 1..10000 is occupied. -/
theorem resolve_spec (r : ConflictResolver) (d name : String) :
    (r.is_occupied d name = false →
      r.resolve d name = some (name, false, r.mark_occupied d name)) ∧
    (r.is_occupied d name = true →
      (∀ n0, n0 ≤ 10000 → 1 ≤ n0 → r.is_occupied d (candidateName name n0) = false →
        (∀ m, m < n0 → 1 ≤ m → r.is_occupied d (candidateName name m) = true) →
        r.resolve d name =
          some (candidateName name n0, true, r.mark_occupied d (candidateName name n0))) ∧
      ((∀ n, n ≤ 10000 → 1 ≤ n → r.is_occupied d (candidateName name n) = true) →
        r.resolve d name = none)) := by
  refine ⟨?_, fun hocc => ⟨?_, ?_⟩⟩
  · intro hfree
    unfold ConflictResolver.resolve
    rw [if_neg (by simp [hfree])]
  · intro n0 hle h1 hfree hprev
    unfold ConflictResolver.resolve
    rw [if_pos hocc]
    have hcand : candidateName name n0 =
        pathStem name ++ "_" ++ toString (1 + (n0 - 1)) ++ pathSuffix name := by
      unfold candidateName
      rw [show 1 + (n0 - 1) = n0 from by omega]
    have := resolveFrom_found r d (pathStem name) (pathSuffix name) 10000 1 (n0 - 1)
      (by omega)
      (by rw [← hcand]; exact hfree)
      (by
        intro j hj
        have : pathStem name ++ "_" ++ toString (1 + j) ++ pathSuffix name =
            candidateName name (1 + j) := rfl
        rw [this]
        exact hprev (1 + j) (by omega) (by omega))
    rw [this, ← hcand]
  · intro hall
    unfold ConflictResolver.resolve
    rw [if_pos hocc]
    apply resolveFrom_none
    intro k hk
    have : pathStem name ++ "_" ++ toString (1 + k) ++ pathSuffix name =
        candidateName name (1 + k) := rfl
    rw [this]
    exact hall (1 + k) (by omega) (by omega)

/-- C5 counterexample: for a desired name containing a path separator
the code splits the last path component, not the whole desired name.
With "a/b.txt" occupied, the claim as stated predicts the candidate
"a/b_1.txt", but resolve returns "b_1.txt". -/
theorem resolve_spec_counterexample :
    (cResolver.resolve "p" "a/b.txt").map (fun x => x.1) = some "b_1.txt" ∧
    ¬ ((cResolver.resolve "p" "a/b.txt").map (fun x => x.1) = some "a/b_1.txt") := by decide

/-- C5 witness: a resolver with "a.txt" and "a_1.txt" occupied resolves
"b.txt" to itself without conflict, and resolves "a.txt" to the
smallest free numbered candidate "a_2.txt". -/
theorem resolve_spec_witness :
    (wResolver.is_occupied "p" "b.txt" = false ∧
      wResolver.resolve "p" "b.txt" =
        some ("b.txt", false, wResolver.mark_occupied "p" "b.txt")) ∧
    (wResolver.is_occupied "p" "a.txt" = true ∧
      wResolver.is_occupied "p" (candidateName "a.txt" 2) = false ∧
      wResolver.resolve "p" "a.txt" =
        some (candidateName "a.txt" 2, true,
          wResolver.mark_occupied "p" (candidateName "a.txt" 2))) :=
  ⟨⟨by decide, (resolve_spec wResolver "p" "b.txt").1 (by decide)⟩,
   ⟨by decide, by decide,
    ((resolve_spec wResolver "p" "a.txt").2 (by decide)).1 2 (by decide) (by decide)
      (by decide) (by decide)⟩⟩

theorem enumIdx_map_fst {α : Type} : ∀ (n : Nat) (l : List α), (enumIdx n l).map Prod.fst = l
  | _, [] => rfl
  | n, _ :: as => by simp [enumIdx, enumIdx_map_fst (n + 1) as]

/-- Phase 1 is a partition of its input operations: every operation
lands either in the temp mapping or in the failure list. -/
theorem runPhase1_perm (o : FsOracle) :
    ∀ l : List (RenameOp × Nat),
      ((runPhase1 o l).1.map (fun x => x.1) ++ (runPhase1 o l).2.1.map Prod.fst).Perm
        (l.map Prod.fst) := by
  intro l
  induction l with
  | nil => simp [runPhase1]
  | cons hd tl ih =>
    obtain ⟨op, i⟩ := hd
    simp only [runPhase1, List.map_cons]
    by_cases h1 : o.srcExists i = true
    · by_cases h2 : o.phase1Ok i = true
      · simp only [h1, h2, if_true, List.map_cons, List.cons_append]
        exact ih.cons op
      · simp only [h1, h2, if_true, if_false, List.map_cons]
        exact List.perm_middle.trans (ih.cons op)
    · simp only [h1, if_false, List.map_cons]
      exact List.perm_middle.trans (ih.cons op)

/-- Phase 2 is a partition of the surviving operations: every operation
lands either in the success list or in the failure list. -/
theorem runPhase2_perm (o : FsOracle) :
    ∀ m : List (RenameOp × FsPath × Nat),
      ((runPhase2 o m).1 ++ (runPhase2 o m).2.1.map Prod.fst).Perm
        (m.map (fun x => x.1)) := by
  intro m
  induction m with
  | nil => simp [runPhase2]
  | cons hd tl ih =>
    obtain ⟨op, tp, i⟩ := hd
    simp only [runPhase2, List.map_cons]
    by_cases h1 : o.phase2Ok i = true
    · simp only [h1, if_true, List.cons_append]
      exact ih.cons op
    · by_cases h2 : o.restoreOk i = true
      · simp only [h1, h2, if_true, if_false, List.map_cons]
        exact List.perm_middle.trans (ih.cons op)
      · simp only [h1, h2, if_false, List.map_cons]
        exact List.perm_middle.trans (ih.cons op)

/-- The two phases together partition the valid operations. -/
theorem phases_partition (o : FsOracle) (vops : List RenameOp) :
    ((runPhase2 o (runPhase1 o (enumIdx 0 vops)).1).1 ++
      ((runPhase1 o (enumIdx 0 vops)).2.1 ++
        (runPhase2 o (runPhase1 o (enumIdx 0 vops)).1).2.1).map Prod.fst).Perm vops := by
  have h1 := runPhase1_perm o (enumIdx 0 vops)
  rw [enumIdx_map_fst] at h1
  have h2 := runPhase2_perm o (runPhase1 o (enumIdx 0 vops)).1
  rw [List.map_append]
  have step1 : ((runPhase2 o (runPhase1 o (enumIdx 0 vops)).1).1 ++
      ((runPhase1 o (enumIdx 0 vops)).2.1.map Prod.fst ++
        (runPhase2 o (runPhase1 o (enumIdx 0 vops)).1).2.1.map Prod.fst)).Perm
      ((runPhase2 o (runPhase1 o (enumIdx 0 vops)).1).1 ++
        ((runPhase2 o (runPhase1 o (enumIdx 0 vops)).1).2.1.map Prod.fst ++
          (runPhase1 o (enumIdx 0 vops)).2.1.map Prod.fst)) :=
    List.Perm.append_left _ List.perm_append_comm
  refine step1.trans ?_
  rw [← List.append_assoc]
  exact (h2.append_right _).trans h1

/-- C2: whenever execute_rename returns a result, the plan's valid
operations are exactly distributed over the result's three lists: the
concatenation of success, the failed operations, and skipped is a
permutation of the valid-operations list (so no valid operation is
dropped and none is counted twice). -/
theorem execute_rename_partitions_valid_ops (plan : RenamePlan) (dry_run has_log_dir : Bool)
    (o : FsOracle) (r : RenameResult) :
    (execute_rename plan dry_run has_log_dir o).result = some r →
    (r.success ++ r.failed.map Prod.fst ++ r.skipped).Perm plan.valid_ops := by
  intro h
  unfold execute_rename at h
  by_cases h1 : plan.valid_ops.isEmpty = true
  · rw [if_pos h1] at h
    dsimp only at h
    cases Option.some.inj h
    simp [List.isEmpty_iff.mp h1]
  · rw [if_neg h1] at h
    by_cases h2 : dry_run = true
    · rw [if_pos h2] at h
      dsimp only at h
      cases Option.some.inj h
      simp
    · rw [if_neg h2] at h
      by_cases h3 : (has_log_dir && !o.planLogOk) = true
      · rw [if_pos h3] at h
        exact Option.noConfusion h
      · rw [if_neg h3] at h
        by_cases h4 : has_log_dir = true
        · rw [if_pos h4] at h
          dsimp only at h
          by_cases h5 : o.resultLogOk = true
          · rw [if_pos h5] at h
            cases Option.some.inj h
            simpa using phases_partition o plan.valid_ops
          · rw [if_neg h5] at h
            exact Option.noConfusion h
        · rw [if_neg h4] at h
          dsimp only at h
          cases Option.some.inj h
          simpa using phases_partition o plan.valid_ops

/-- C2 witness: a concrete execution whose result partitions the valid
operations. -/
theorem execute_rename_partitions_valid_ops_witness :
    (execute_rename wPlan false false wOracle).result = some wRes ∧
    (wRes.success ++ wRes.failed.map Prod.fst ++ wRes.skipped).Perm wPlan.valid_ops :=
  ⟨by decide, execute_rename_partitions_valid_ops wPlan false false wOracle wRes (by decide)⟩

theorem mark_occupied_case_insensitive (r : ConflictResolver) (d n : String) :
    (r.mark_occupied d n).case_insensitive = r.case_insensitive := rfl

theorem mark_occupied_self (r : ConflictResolver) (d n : String) :
    (r.mark_occupied d n).occupied d = r.nrm n :: r.occupied d := by
  simp [ConflictResolver.mark_occupied, updFun]

/-- Whatever the candidate loop returns was free beforehand, and the
new state is exactly the old state with that name claimed. -/
theorem resolveFrom_some_mark (r : ConflictResolver) (d stem suf : String) :
    ∀ (fuel n : Nat) (final : String) (b : Bool) (r2 : ConflictResolver),
      r.resolveFrom d stem suf n fuel = some (final, b, r2) →
      r.is_occupied d final = false ∧ r2 = r.mark_occupied d final := by
  intro fuel
  induction fuel with
  | zero => intro n final b r2 h; exact Option.noConfusion h
  | succ fuel ih =>
    intro n final b r2 h
    unfold ConflictResolver.resolveFrom at h
    by_cases hc : r.is_occupied d (stem ++ "_" ++ toString n ++ suf) = true
    · rw [if_pos hc] at h
      exact ih (n + 1) final b r2 h
    · rw [if_neg hc] at h
      simp only [Option.some.injEq, Prod.mk.injEq] at h
      obtain ⟨rfl, _, rfl⟩ := h
      exact ⟨by simpa using hc, rfl⟩

/-- Whatever `resolve` returns was free beforehand, and the new state
is exactly the old state with the returned name claimed. -/
theorem resolve_some_mark (r : ConflictResolver) (d name final : String) (b : Bool)
    (r2 : ConflictResolver) :
    r.resolve d name = some (final, b, r2) →
    r.is_occupied d final = false ∧ r2 = r.mark_occupied d final := by
  intro h
  unfold ConflictResolver.resolve at h
  by_cases hc : r.is_occupied d name = true
  · rw [if_pos hc] at h
    exact resolveFrom_some_mark r d _ _ 10000 1 final b r2 h
  · rw [if_neg hc] at h
    simp only [Option.some.injEq, Prod.mk.injEq] at h
    obtain ⟨rfl, _, rfl⟩ := h
    exact ⟨by simpa using hc, rfl⟩

theorem nrm_eq (r : ConflictResolver) (ci : Bool) (h : r.case_insensitive = ci) (n : String) :
    r.nrm n = normalize_for_comparison n ci := by rw [ConflictResolver.nrm, h]

theorem is_occupied_false_iff (r : ConflictResolver) (d n : String) :
    r.is_occupied d n = false ↔ r.nrm n ∉ r.occupied d := by
  simp [ConflictResolver.is_occupied]

/-- Structure of the per-directory replace loop: it only appends
operations, all targeting the processed directory, whose normalized
destination names were unoccupied beforehand and are pairwise
distinct. -/
theorem replaceDirLoop_spec (old_str new_str : String) (cs : Bool) (d : String) (ci : Bool) :
    ∀ (fs : List FileItem) (r : ConflictResolver) (plan : RenamePlan)
      (r2 : ConflictResolver) (plan2 : RenamePlan),
      r.case_insensitive = ci →
      replaceDirLoop old_str new_str cs d fs r plan = some (r2, plan2) →
      ∃ newOps : List RenameOp,
        plan2.ops = plan.ops ++ newOps ∧
        plan2.errors = plan.errors ∧
        plan2.options = plan.options ∧
        (∀ op ∈ newOps, op.dst.dir = d) ∧
        (∀ op ∈ newOps, normalize_for_comparison op.dst.name ci ∉ r.occupied d) ∧
        newOps.Pairwise (fun a b =>
          normalize_for_comparison a.dst.name ci ≠ normalize_for_comparison b.dst.name ci) := by
  intro fs
  induction fs with
  | nil =>
    intro r plan r2 plan2 hci h
    simp only [replaceDirLoop, Option.some.injEq, Prod.mk.injEq] at h
    obtain ⟨rfl, rfl⟩ := h
    exact ⟨[], by simp, rfl, rfl, by simp, by simp, List.Pairwise.nil⟩
  | cons f fs ih =>
    intro r plan r2 plan2 hci h
    simp only [replaceDirLoop] at h
    cases hrt : replace_text f.name old_str new_str cs with
    | none => rw [hrt] at h; exact Option.noConfusion h
    | some new_name =>
      rw [hrt] at h
      dsimp only at h
      by_cases heq : new_name = f.name
      · rw [if_pos heq] at h
        exact ih r plan r2 plan2 hci h
      · rw [if_neg heq] at h
        cases hv : is_valid_filename new_name with
        | mk vb verr =>
          rw [hv] at h
          cases vb
          · dsimp only at h
            obtain ⟨newOps, h1, h2, h3, h4, h5, h6⟩ := ih r _ r2 plan2 hci h
            refine ⟨newOps, ?_, ?_, ?_, h4, h5, h6⟩
            · simpa [RenamePlan.add_warning] using h1
            · simpa [RenamePlan.add_warning] using h2
            · simpa [RenamePlan.add_warning] using h3
          · dsimp only at h
            cases hres : r.resolve d new_name with
            | none => rw [hres] at h; exact Option.noConfusion h
            | some trip =>
              obtain ⟨final, conflict, rr⟩ := trip
              rw [hres] at h
              dsimp only at h
              obtain ⟨hfree, hmark⟩ := resolve_some_mark r d new_name final conflict rr hres
              have hci2 : rr.case_insensitive = ci := by
                rw [hmark, mark_occupied_case_insensitive]; exact hci
              obtain ⟨restOps, h1, h2, h3, h4, h5, h6⟩ := ih rr _ r2 plan2 hci2 h
              have hoccrr : rr.occupied d = r.nrm final :: r.occupied d := by
                rw [hmark, mark_occupied_self]
              have hfreeMem : normalize_for_comparison final ci ∉ r.occupied d := by
                rw [← nrm_eq r ci hci]
                exact (is_occupied_false_iff r d final).mp hfree
              have hrest : ∀ op ∈ restOps,
                  normalize_for_comparison op.dst.name ci ≠ normalize_for_comparison final ci ∧
                  normalize_for_comparison op.dst.name ci ∉ r.occupied d := by
                intro op hm
                have := h5 op hm
                rw [hoccrr] at this
                simp only [List.mem_cons, not_or] at this
                have h51 := this.1
                rw [nrm_eq r ci hci] at h51
                exact ⟨h51, this.2⟩
              refine ⟨⟨f.path, ⟨d, final⟩,
                  if conflict = true then conflictNote new_name final else ""⟩ :: restOps,
                ?_, ?_, ?_, ?_, ?_, ?_⟩
              · rw [h1]
                simp [RenamePlan.add_op]
              · simpa [RenamePlan.add_op] using h2
              · simpa [RenamePlan.add_op] using h3
              · intro op hm
                rcases List.mem_cons.mp hm with hm1 | hm2
                · rw [hm1]
                · exact h4 op hm2
              · intro op hm
                rcases List.mem_cons.mp hm with hm1 | hm2
                · rw [hm1]; exact hfreeMem
                · exact (hrest op hm2).2
              · refine List.Pairwise.cons ?_ h6
                intro b hb
                exact fun hc => (hrest b hb).1 (hc.symm)

/-- Structure of the sequence loop: it only appends operations, all
targeting the processed directory, whose normalized destination names
were unoccupied beforehand and are pairwise distinct. -/
theorem seqLoop_distinct (st pad : Int) (pre suffix_str d : String) (ci : Bool) :
    ∀ (l : List (FileItem × Nat)) (r : ConflictResolver) (plan : RenamePlan)
      (r2 : ConflictResolver) (plan2 : RenamePlan),
      r.case_insensitive = ci →
      seqLoop st pad pre suffix_str d l r plan = some (r2, plan2) →
      ∃ newOps : List RenameOp,
        plan2.ops = plan.ops ++ newOps ∧
        plan2.errors = plan.errors ∧
        plan2.options = plan.options ∧
        (∀ op ∈ newOps, op.dst.dir = d) ∧
        (∀ op ∈ newOps, normalize_for_comparison op.dst.name ci ∉ r.occupied d) ∧
        newOps.Pairwise (fun a b =>
          normalize_for_comparison a.dst.name ci ≠ normalize_for_comparison b.dst.name ci) := by
  intro l
  induction l with
  | nil =>
    intro r plan r2 plan2 hci h
    simp only [seqLoop, Option.some.injEq, Prod.mk.injEq] at h
    obtain ⟨rfl, rfl⟩ := h
    exact ⟨[], by simp, rfl, rfl, by simp, by simp, List.Pairwise.nil⟩
  | cons fi l ih =>
    intro r plan r2 plan2 hci h
    obtain ⟨f, i⟩ := fi
    simp only [seqLoop] at h
    cases hv : is_valid_filename (seqDesired st pad pre suffix_str i f) with
    | mk vb verr =>
      rw [hv] at h
      cases vb
      · dsimp only at h
        obtain ⟨newOps, h1, h2, h3, h4, h5, h6⟩ := ih r _ r2 plan2 hci h
        refine ⟨newOps, ?_, ?_, ?_, h4, h5, h6⟩
        · simpa [RenamePlan.add_warning] using h1
        · simpa [RenamePlan.add_warning] using h2
        · simpa [RenamePlan.add_warning] using h3
      · dsimp only at h
        cases hres : r.resolve d (seqDesired st pad pre suffix_str i f) with
        | none => rw [hres] at h; exact Option.noConfusion h
        | some trip =>
          obtain ⟨final, conflict, rr⟩ := trip
          rw [hres] at h
          dsimp only at h
          obtain ⟨hfree, hmark⟩ := resolve_some_mark r d _ final conflict rr hres
          have hci2 : rr.case_insensitive = ci := by
            rw [hmark, mark_occupied_case_insensitive]; exact hci
          obtain ⟨restOps, h1, h2, h3, h4, h5, h6⟩ := ih rr _ r2 plan2 hci2 h
          have hoccrr : rr.occupied d = r.nrm final :: r.occupied d := by
            rw [hmark, mark_occupied_self]
          have hfreeMem : normalize_for_comparison final ci ∉ r.occupied d := by
            rw [← nrm_eq r ci hci]
            exact (is_occupied_false_iff r d final).mp hfree
          have hrest : ∀ op ∈ restOps,
              normalize_for_comparison op.dst.name ci ≠ normalize_for_comparison final ci ∧
              normalize_for_comparison op.dst.name ci ∉ r.occupied d := by
            intro op hm
            have := h5 op hm
            rw [hoccrr] at this
            simp only [List.mem_cons, not_or] at this
            have h51 := this.1
            rw [nrm_eq r ci hci] at h51
            exact ⟨h51, this.2⟩
          refine ⟨⟨f.path, ⟨d, final⟩,
              if conflict = true then conflictNote (seqDesired st pad pre suffix_str i f) final
              else ""⟩ :: restOps,
            ?_, ?_, ?_, ?_, ?_, ?_⟩
          · rw [h1]
            simp [RenamePlan.add_op]
          · simpa [RenamePlan.add_op] using h2
          · simpa [RenamePlan.add_op] using h3
          · intro op hm
            rcases List.mem_cons.mp hm with hm1 | hm2
            · rw [hm1]
            · exact h4 op hm2
          · intro op hm
            rcases List.mem_cons.mp hm with hm1 | hm2
            · rw [hm1]; exact hfreeMem
            · exact (hrest op hm2).2
          · refine List.Pairwise.cons ?_ h6
            intro b hb
            exact fun hc => (hrest b hb).1 (hc.symm)

theorem insertGrouped_mem_keys (d : String) (f : FileItem) :
    ∀ (acc : List (String × List FileItem)) (x : String),
      x ∈ (insertGrouped acc d f).map Prod.fst ↔ (x ∈ acc.map Prod.fst ∨ x = d) := by
  intro acc
  induction acc with
  | nil => intro x; simp [insertGrouped]
  | cons hd tl ih =>
    intro x
    obtain ⟨d2, fs⟩ := hd
    simp only [insertGrouped]
    by_cases hdd : d2 = d
    · rw [if_pos hdd]
      subst hdd
      simp only [List.map_cons, List.mem_cons]
      constructor
      · intro hc; rcases hc with hc | hc
        · exact Or.inl (Or.inl hc)
        · exact Or.inl (Or.inr hc)
      · intro hc; rcases hc with (hc | hc) | hc
        · exact Or.inl hc
        · exact Or.inr hc
        · exact Or.inl hc
    · rw [if_neg hdd]
      simp only [List.map_cons, List.mem_cons, ih x]
      tauto

theorem insertGrouped_pairwise (d : String) (f : FileItem) :
    ∀ acc : List (String × List FileItem),
      acc.Pairwise (fun a b => a.1 ≠ b.1) →
      (insertGrouped acc d f).Pairwise (fun a b => a.1 ≠ b.1) := by
  intro acc
  induction acc with
  | nil => intro _; simp [insertGrouped]
  | cons hd tl ih =>
    intro hp
    obtain ⟨d2, fs⟩ := hd
    rw [List.pairwise_cons] at hp
    simp only [insertGrouped]
    by_cases hdd : d2 = d
    · rw [if_pos hdd]
      exact List.Pairwise.cons hp.1 hp.2
    · rw [if_neg hdd]
      refine List.Pairwise.cons ?_ (ih hp.2)
      intro b hb
      have := (insertGrouped_mem_keys d f tl b.1).mp (List.mem_map_of_mem Prod.fst hb)
      rcases this with hmem | hbd
      · obtain ⟨c, hc, hc2⟩ := List.mem_map.mp hmem
        exact hc2 ▸ hp.1 c hc
      · exact hbd ▸ hdd

theorem foldl_insertGrouped_pairwise :
    ∀ (files : List FileItem) (acc : List (String × List FileItem)),
      acc.Pairwise (fun a b => a.1 ≠ b.1) →
      (files.foldl (fun acc f => insertGrouped acc f.path.dir f) acc).Pairwise
        (fun a b => a.1 ≠ b.1) := by
  intro files
  induction files with
  | nil => intro acc h; exact h
  | cons f fs ih => intro acc h; exact ih _ (insertGrouped_pairwise f.path.dir f acc h)

/-- The directory groups have pairwise distinct directory keys. -/
theorem groupByDir_pairwise (files : List FileItem) :
    (groupByDir files).Pairwise (fun a b => a.1 ≠ b.1) := by
  exact foldl_insertGrouped_pairwise files [] List.Pairwise.nil

/-- Processing the directory groups preserves (and extends) pairwise
distinctness of destination keys across the whole plan. -/
theorem processGroups_spec (disk : String → List String) (old_str new_str : String)
    (cs : Bool) (opts : RenameOptions) :
    ∀ (groups : List (String × List FileItem)) (plan plan2 : RenamePlan),
      groups.Pairwise (fun a b => a.1 ≠ b.1) →
      (∀ op ∈ plan.ops, op.dst.dir ∉ groups.map Prod.fst) →
      plan.ops.Pairwise (fun a b =>
        dstKey opts.case_insensitive_detect a ≠ dstKey opts.case_insensitive_detect b) →
      plan.options = opts →
      processGroups disk old_str new_str cs opts groups plan = some plan2 →
      plan2.ops.Pairwise (fun a b =>
        dstKey opts.case_insensitive_detect a ≠ dstKey opts.case_insensitive_detect b) ∧
      plan2.options = opts := by
  intro groups
  induction groups with
  | nil =>
    intro plan plan2 _ _ hpw hopts h
    simp only [processGroups, Option.some.injEq] at h
    exact h ▸ ⟨hpw, hopts⟩
  | cons g rest ih =>
    intro plan plan2 hkeys hdirs hpw hopts h
    obtain ⟨d, dfs⟩ := g
    simp only [processGroups] at h
    cases hloop : replaceDirLoop old_str new_str cs d (sort_by_path dfs)
        (freshResolver disk opts d ((sort_by_path dfs).map (fun f => f.name))) plan with
    | none => rw [hloop] at h; exact Option.noConfusion h
    | some pr =>
      obtain ⟨rmid, plan1⟩ := pr
      rw [hloop] at h
      dsimp only at h
      obtain ⟨newOps, h1, _, h3, h4, h5, h6⟩ :=
        replaceDirLoop_spec old_str new_str cs d opts.case_insensitive_detect
          (sort_by_path dfs)
          (freshResolver disk opts d ((sort_by_path dfs).map (fun f => f.name)))
          plan rmid plan1 rfl hloop
      rw [List.pairwise_cons] at hkeys
      refine ih plan1 plan2 hkeys.2 ?_ ?_ (by rw [h3, hopts]) h
      · intro op hop
        rw [h1] at hop
        rcases List.mem_append.mp hop with hold | hnew
        · intro hmem
          exact hdirs op hold (by simp only [List.map_cons, List.mem_cons]; exact Or.inr hmem)
        · rw [h4 op hnew]
          intro hmem
          obtain ⟨b, hb, hbeq⟩ := List.mem_map.mp hmem
          exact hkeys.1 b hb hbeq.symm
      · rw [h1, List.pairwise_append]
        refine ⟨hpw, ?_, ?_⟩
        · refine h6.imp ?_
          intro a b hab hc
          exact hab (congrArg Prod.snd hc)
        · intro a ha b hb hc
          have hda : a.dst.dir ≠ d := by
            intro hmemd
            exact hdirs a ha (by simp only [List.map_cons, List.mem_cons]; exact Or.inl hmemd)
          have hdb : b.dst.dir = d := h4 b hb
          have := congrArg Prod.fst hc
          simp only [dstKey] at this
          exact hda (this.trans hdb)

/-- C1: for every plan returned by plan_replace_rename or
plan_sequence_rename, the destination paths of the plan's valid
operations are pairwise distinct under the active case-sensitivity
policy: directories compared byte-for-byte, names case-folded when
options.case_insensitive_detect is true and byte-for-byte otherwise. -/
theorem plan_dst_pairwise_distinct (disk : String → List String) (files : List FileItem)
    (old_str new_str : String) (case_sensitive : Bool) (sort_by : SortKey) (reverse : Bool)
    (start padding : Int) (pre suffix_str : String) (options : RenameOptions)
    (p q : RenamePlan) :
    (plan_replace_rename disk files old_str new_str case_sensitive options = some p →
      PlanDstDistinct p) ∧
    (plan_sequence_rename disk files sort_by reverse start padding pre suffix_str options =
        some q → PlanDstDistinct q) := by
  constructor
  · intro h
    unfold plan_replace_rename at h
    by_cases hold : old_str = ""
    · rw [if_pos hold] at h
      cases Option.some.inj h
      unfold PlanDstDistinct RenamePlan.valid_ops
      simp [RenamePlan.add_error]
    · rw [if_neg hold] at h
      obtain ⟨hpw, hopts⟩ := processGroups_spec disk old_str new_str case_sensitive options
        (groupByDir files) ⟨[], [], [], options⟩ p (groupByDir_pairwise files)
        (by intro op hop; cases hop) List.Pairwise.nil rfl h
      unfold PlanDstDistinct RenamePlan.valid_ops
      rw [hopts]
      exact hpw.sublist (List.filter_sublist _)
  · intro h
    unfold plan_sequence_rename at h
    by_cases hemp : files.isEmpty = true
    · rw [if_pos hemp] at h
      cases Option.some.inj h
      unfold PlanDstDistinct RenamePlan.valid_ops
      simp
    · rw [if_neg hemp] at h
      dsimp only at h
      by_cases hd1 : 1 < (uniqueDirs (files.map (fun f => f.path.dir))).length
      · rw [if_pos hd1] at h
        cases Option.some.inj h
        unfold PlanDstDistinct RenamePlan.valid_ops
        simp [RenamePlan.add_error]
      · rw [if_neg hd1] at h
        cases hloop : seqLoop start padding pre suffix_str
            ((uniqueDirs (files.map (fun f => f.path.dir))).headD "")
            (enumIdx 0 (sort_files files sort_by reverse))
            (freshResolver disk options
              ((uniqueDirs (files.map (fun f => f.path.dir))).headD "")
              (files.map (fun f => f.name)))
            ⟨[], [], [], options⟩ with
        | none => rw [hloop] at h; exact Option.noConfusion h
        | some pr =>
          obtain ⟨rr, plan2⟩ := pr
          rw [hloop] at h
          have hq := Option.some.inj h
          subst hq
          obtain ⟨newOps, h1, _, h3, h4, h5, h6⟩ := seqLoop_distinct start padding pre
            suffix_str ((uniqueDirs (files.map (fun f => f.path.dir))).headD "")
            options.case_insensitive_detect (enumIdx 0 (sort_files files sort_by reverse))
            (freshResolver disk options
              ((uniqueDirs (files.map (fun f => f.path.dir))).headD "")
              (files.map (fun f => f.name)))
            ⟨[], [], [], options⟩ rr plan2 rfl hloop
          unfold PlanDstDistinct RenamePlan.valid_ops
          have hops : plan2.ops = newOps := by simpa using h1
          have hopts : plan2.options.case_insensitive_detect =
              options.case_insensitive_detect := by rw [h3]
          rw [hops, hopts]
          refine List.Pairwise.sublist (List.filter_sublist _) ?_
      -- remains: newOps pairwise under dstKey
          refine h6.imp ?_
          intro a b hab hc
          exact hab (congrArg Prod.snd hc)

/-- C1 witness: concrete runs of both generators whose plans have
pairwise distinct destination keys. -/
theorem plan_dst_pairwise_distinct_witness :
    (plan_replace_rename wDisk1 [mkItem "d" "a1.txt" 0, mkItem "d" "b.txt" 1] "a1" "b" true
        wOpts = some wReplacePlan ∧ PlanDstDistinct wReplacePlan) ∧
    (plan_sequence_rename wDiskEmpty [mkItem "d" "b.txt" 2, mkItem "d" "a.txt" 1]
        SortKey.mtime false 1 3 "img_" "" wOpts = some wSeqPlan ∧
      PlanDstDistinct wSeqPlan) :=
  ⟨⟨by decide,
    (plan_dst_pairwise_distinct wDisk1 [mkItem "d" "a1.txt" 0, mkItem "d" "b.txt" 1]
      "a1" "b" true SortKey.mtime false 1 3 "img_" "" wOpts wReplacePlan wReplacePlan).1
      (by decide)⟩,
   ⟨by decide,
    (plan_dst_pairwise_distinct wDiskEmpty [mkItem "d" "b.txt" 2, mkItem "d" "a.txt" 1]
      "" "" true SortKey.mtime false 1 3 "img_" "" wOpts wSeqPlan wSeqPlan).2
      (by decide)⟩⟩

theorem insertStable_perm {α : Type} (le : α → α → Bool) (x : α) :
    ∀ l : List α, (insertStable le x l).Perm (x :: l) := by
  intro l
  induction l with
  | nil => exact List.Perm.refl _
  | cons y ys ih =>
    unfold insertStable
    by_cases hc : le x y = true
    · rw [if_pos hc]
    · rw [if_neg hc]
      exact (ih.cons y).trans (List.Perm.swap x y ys)

/-- The stable sort is a permutation of its input. -/
theorem pySorted_perm {α : Type} (le : α → α → Bool) :
    ∀ l : List α, (pySorted le l).Perm l := by
  intro l
  induction l with
  | nil => exact List.Perm.refl _
  | cons x xs ih => exact (insertStable_perm le x _).trans (ih.cons x)

theorem resolveFrom_some_flag (r : ConflictResolver) (d stem suf : String) :
    ∀ (fuel n : Nat) (final : String) (b : Bool) (r2 : ConflictResolver),
      r.resolveFrom d stem suf n fuel = some (final, b, r2) → b = true := by
  intro fuel
  induction fuel with
  | zero => intro n final b r2 h; exact Option.noConfusion h
  | succ fuel ih =>
    intro n final b r2 h
    unfold ConflictResolver.resolveFrom at h
    by_cases hc : r.is_occupied d (stem ++ "_" ++ toString n ++ suf) = true
    · rw [if_pos hc] at h
      exact ih (n + 1) final b r2 h
    · rw [if_neg hc] at h
      simp only [Option.some.injEq, Prod.mk.injEq] at h
      exact h.2.1.symm

/-- A resolve call that reports no conflict returned the desired name
unchanged. -/
theorem resolve_false_eq (r : ConflictResolver) (d name final : String)
    (r2 : ConflictResolver) :
    r.resolve d name = some (final, false, r2) → final = name := by
  intro h
  unfold ConflictResolver.resolve at h
  by_cases hc : r.is_occupied d name = true
  · rw [if_pos hc] at h
    exact absurd (resolveFrom_some_flag r d _ _ 10000 1 final false r2 h) (by simp)
  · rw [if_neg hc] at h
    simp only [Option.some.injEq, Prod.mk.injEq] at h
    exact h.1.symm

/-- The occupied set the generators seed for one directory: the
normalized on-disk names minus the batch's normalized source names. -/
theorem freshResolver_occupied (disk : String → List String) (opts : RenameOptions)
    (d : String) (parts : List String) :
    (freshResolver disk opts d parts).occupied d =
      ((get_existing_names disk d opts.case_insensitive_detect).map
        (fun n => normalize_for_comparison n opts.case_insensitive_detect)).filter
        (fun x => decide (x ∉ parts.map
          (fun n => normalize_for_comparison n opts.case_insensitive_detect))) := by
  simp only [freshResolver, ConflictResolver.add_existing,
    ConflictResolver.remove_participating, updFun, if_pos, List.nil_append]
  rfl

/-- Releasing the batch's source names makes every name whose
normalization is among them free, regardless of the disk content. -/
theorem freshResolver_free (disk : String → List String) (opts : RenameOptions)
    (d : String) (parts : List String) (n : String) :
    normalize_for_comparison n opts.case_insensitive_detect ∈
      parts.map (fun m => normalize_for_comparison m opts.case_insensitive_detect) →
    (freshResolver disk opts d parts).is_occupied d n = false := by
  intro hmem
  have hnrm : (freshResolver disk opts d parts).nrm n =
      normalize_for_comparison n opts.case_insensitive_detect := rfl
  rw [ConflictResolver.is_occupied, hnrm, freshResolver_occupied]
  rw [decide_eq_false_iff_not]
  intro hin
  have := List.of_mem_filter hin
  rw [decide_eq_true_iff] at this
  exact this hmem

theorem foldl_insertGrouped_single (d : String) :
    ∀ (files : List FileItem) (acc : List FileItem),
      (∀ f ∈ files, f.path.dir = d) →
      files.foldl (fun acc2 f => insertGrouped acc2 f.path.dir f) [(d, acc)] =
        [(d, acc ++ files)] := by
  intro files
  induction files with
  | nil => intro acc _; simp
  | cons f fs ih =>
    intro acc hdir
    have hfd : f.path.dir = d := hdir f (List.mem_cons_self f fs)
    simp only [List.foldl_cons, hfd]
    have hins : insertGrouped [(d, acc)] d f = [(d, acc ++ [f])] := by
      simp [insertGrouped]
    rw [hins, ih (acc ++ [f]) (fun g hg => hdir g (List.mem_cons_of_mem f hg))]
    simp

/-- When every file lives in one directory, grouping yields the single
group of that directory with the files in input order. -/
theorem groupByDir_single (d : String) (files : List FileItem) :
    files ≠ [] → (∀ f ∈ files, f.path.dir = d) → groupByDir files = [(d, files)] := by
  intro hne hdir
  cases files with
  | nil => exact absurd rfl hne
  | cons f fs =>
    have hfd : f.path.dir = d := hdir f (List.mem_cons_self f fs)
    unfold groupByDir
    simp only [List.foldl_cons, hfd]
    have hins : insertGrouped [] d f = [(d, [f])] := by simp [insertGrouped]
    rw [hins, foldl_insertGrouped_single d fs [f]
      (fun g hg => hdir g (List.mem_cons_of_mem f hg))]
    simp

/-- When every changed desired name is valid and unoccupied and the
changed desired names are pairwise distinct, the replace loop emits
exactly one operation per changed file, mapping it to its desired name
with an empty note, and adds no warnings. -/
theorem replaceDirLoop_free (old_str new_str : String) (cs : Bool) (d : String) (ci : Bool)
    (des : FileItem → String) :
    ∀ (fs : List FileItem) (r : ConflictResolver) (plan : RenamePlan),
      r.case_insensitive = ci →
      (∀ f ∈ fs, replace_text f.name old_str new_str cs = some (des f)) →
      (∀ f ∈ fs, des f ≠ f.name →
        (is_valid_filename (des f)).1 = true ∧ r.is_occupied d (des f) = false) →
      fs.Pairwise (fun f g => des f ≠ f.name → des g ≠ g.name →
        normalize_for_comparison (des f) ci ≠ normalize_for_comparison (des g) ci) →
      ∃ r2, replaceDirLoop old_str new_str cs d fs r plan =
        some (r2, { plan with ops := plan.ops ++ fs.filterMap (fun f =>
          if des f = f.name then none
          else some ⟨f.path, ⟨d, des f⟩, ""⟩) }) := by
  intro fs
  induction fs with
  | nil =>
    intro r plan _ _ _ _
    exact ⟨r, by simp [replaceDirLoop]⟩
  | cons f fs ih =>
    intro r plan hci hrepl hfree hpair
    have hreplf := hrepl f (List.mem_cons_self f fs)
    simp only [replaceDirLoop, hreplf]
    by_cases hch : des f = f.name
    · rw [if_pos hch]
      obtain ⟨r2, hIH⟩ := ih r plan hci
        (fun g hg => hrepl g (List.mem_cons_of_mem f hg))
        (fun g hg => hfree g (List.mem_cons_of_mem f hg))
        (List.Pairwise.sublist (List.sublist_cons_self f fs) hpair)
      refine ⟨r2, hIH.trans ?_⟩
      congr 2
      simp [List.filterMap_cons, hch]
    · rw [if_neg hch]
      obtain ⟨hvalid, hocc⟩ := hfree f (List.mem_cons_self f fs) hch
      cases hval : is_valid_filename (des f) with
      | mk vb verr =>
        rw [hval] at hvalid
        dsimp only at hvalid
        subst hvalid
        dsimp only
        have hres : r.resolve d (des f) = some (des f, false, r.mark_occupied d (des f)) := by
          unfold ConflictResolver.resolve
          rw [if_neg (by simp [hocc])]
        rw [hres]
        dsimp only
        rw [List.pairwise_cons] at hpair
        have hci2 : (r.mark_occupied d (des f)).case_insensitive = ci := by
          rw [mark_occupied_case_insensitive]; exact hci
        have hside : ∀ g ∈ fs, des g ≠ g.name →
            (is_valid_filename (des g)).1 = true ∧
            (r.mark_occupied d (des f)).is_occupied d (des g) = false := by
          intro g hg hgch
          refine ⟨(hfree g (List.mem_cons_of_mem f hg) hgch).1, ?_⟩
          have hgocc := (hfree g (List.mem_cons_of_mem f hg) hgch).2
          rw [is_occupied_false_iff] at hgocc ⊢
          rw [mark_occupied_self]
          have hnrmg : (r.mark_occupied d (des f)).nrm (des g) = r.nrm (des g) := rfl
          have hne := hpair.1 g hg hch hgch
          rw [hnrmg]
          simp only [List.mem_cons, not_or]
          refine ⟨?_, hgocc⟩
          rw [nrm_eq r ci hci, nrm_eq r ci hci]
          exact fun hcmp => hne hcmp.symm
        obtain ⟨r2, hIH⟩ := ih (r.mark_occupied d (des f))
          (plan.add_op f.path ⟨d, des f⟩ "") hci2
          (fun g hg => hrepl g (List.mem_cons_of_mem f hg)) hside hpair.2
        refine ⟨r2, hIH.trans ?_⟩
        congr 2
        all_goals simp [RenamePlan.add_op, List.filterMap_cons, hch]

/-- C4: when the files of one directory are renamed among the batch's
own current names (each changed desired name normalizes to some batch
source name, changed desired names pairwise distinct and valid), the
generated plan maps each changed file to exactly its desired name with
an empty note (no resolver-reported conflict, no induced _1 suffix) and
no warnings or errors, because the batch's source names are released
from the occupied set before any resolution. -/
theorem plan_replace_in_batch_names (disk : String → List String) (files : List FileItem)
    (old_str new_str : String) (cs : Bool) (opts : RenameOptions) (d : String)
    (des : FileItem → String) :
    old_str ≠ "" →
    files ≠ [] →
    (∀ f ∈ files, f.path.dir = d) →
    (∀ f ∈ files, replace_text f.name old_str new_str cs = some (des f)) →
    (∀ f ∈ files, des f ≠ f.name →
      (is_valid_filename (des f)).1 = true ∧
      normalize_for_comparison (des f) opts.case_insensitive_detect ∈
        files.map (fun g => normalize_for_comparison g.name opts.case_insensitive_detect)) →
    files.Pairwise (fun f g => des f ≠ f.name → des g ≠ g.name →
      normalize_for_comparison (des f) opts.case_insensitive_detect ≠
        normalize_for_comparison (des g) opts.case_insensitive_detect) →
    plan_replace_rename disk files old_str new_str cs opts =
      some ⟨(sort_by_path files).filterMap (fun f =>
          if des f = f.name then none else some ⟨f.path, ⟨d, des f⟩, ""⟩),
        [], [], opts⟩ := by
  intro hold hne hdir hrepl hval hpair
  unfold plan_replace_rename
  rw [if_neg hold, groupByDir_single d files hne hdir]
  simp only [processGroups]
  have hperm : (sort_by_path files).Perm files := pySorted_perm _ files
  have hmemiff : ∀ g, g ∈ sort_by_path files ↔ g ∈ files := fun g => hperm.mem_iff
  have hpartmem : ∀ g ∈ sort_by_path files, des g ≠ g.name →
      normalize_for_comparison (des g) opts.case_insensitive_detect ∈
        ((sort_by_path files).map (fun f => f.name)).map
          (fun m => normalize_for_comparison m opts.case_insensitive_detect) := by
    intro g hg hgch
    have hthis := (hval g ((hmemiff g).mp hg) hgch).2
    obtain ⟨g0, hg0, hg0eq⟩ := List.mem_map.mp hthis
    exact List.mem_map.mpr ⟨g0.name, List.mem_map.mpr ⟨g0, (hmemiff g0).mpr hg0, rfl⟩, hg0eq⟩
  have hpair2 := (hperm.pairwise_iff
    (fun hab hgch hfch => (hab hfch hgch).symm)).mpr hpair
  obtain ⟨r2, hloop⟩ := replaceDirLoop_free old_str new_str cs d
    opts.case_insensitive_detect des (sort_by_path files)
    (freshResolver disk opts d ((sort_by_path files).map (fun f => f.name)))
    ⟨[], [], [], opts⟩ rfl
    (fun g hg => hrepl g ((hmemiff g).mp hg))
    (fun g hg hgch => ⟨(hval g ((hmemiff g).mp hg) hgch).1,
      freshResolver_free disk opts d _ (des g) (hpartmem g hg hgch)⟩)
    hpair2
  rw [hloop]
  rfl

/-- C4 witness: a batch in which a1.txt takes over the name b.txt that
another batch member currently holds on disk; the op maps it to exactly
b.txt with an empty note (no _1 suffix), because the batch's source
names were released before resolution. -/
theorem plan_replace_in_batch_names_witness :
    ("a1" : String) ≠ "" ∧
    plan_replace_rename wDisk1 [mkItem "d" "a1.txt" 0, mkItem "d" "b.txt" 1] "a1" "b" true
        wOpts =
      some ⟨(sort_by_path [mkItem "d" "a1.txt" 0, mkItem "d" "b.txt" 1]).filterMap (fun f =>
          if "b.txt" = f.name then none
          else some ⟨f.path, ⟨"d", "b.txt"⟩, ""⟩),
        [], [], wOpts⟩ :=
  ⟨by decide,
   plan_replace_in_batch_names wDisk1 [mkItem "d" "a1.txt" 0, mkItem "d" "b.txt" 1]
     "a1" "b" true wOpts "d" (fun _ => "b.txt")
     (by decide) (by decide) (by decide) (by decide) (by decide) (by decide)⟩

theorem enumIdx_length {α : Type} : ∀ (n : Nat) (l : List α), (enumIdx n l).length = l.length
  | _, [] => rfl
  | n, _ :: as => by simp [enumIdx, enumIdx_length (n + 1) as]

theorem enumIdx_get {α : Type} :
    ∀ (n : Nat) (l : List α) (j : Nat) (hj : j < (enumIdx n l).length)
      (hj2 : j < l.length),
      (enumIdx n l).get ⟨j, hj⟩ = (l.get ⟨j, hj2⟩, n + j) := by
  intro n l
  induction l generalizing n with
  | nil => intro j hj hj2; exact absurd hj2 (by simp)
  | cons a as ih =>
    intro j hj hj2
    cases j with
    | zero => simp [enumIdx]
    | succ j2 =>
      simp only [enumIdx, List.get_cons_succ]
      rw [ih (n + 1) j2 _ (Nat.lt_of_succ_lt_succ hj2)]
      congr 1
      omega

/-- Index-wise description of the sequence loop when every desired name
is valid: one operation per input pair, in order, whose source is the
file's path and whose destination records either the desired name (no
conflict, empty note) or a conflict note naming the desired name. -/
theorem seqLoop_names (st pad : Int) (pre suffix_str d : String) :
    ∀ (l : List (FileItem × Nat)) (r : ConflictResolver) (plan : RenamePlan)
      (r2 : ConflictResolver) (plan2 : RenamePlan),
      (∀ fi ∈ l, (is_valid_filename (seqDesired st pad pre suffix_str fi.2 fi.1)).1 = true) →
      seqLoop st pad pre suffix_str d l r plan = some (r2, plan2) →
      ∃ newOps : List RenameOp,
        plan2.ops = plan.ops ++ newOps ∧
        newOps.length = l.length ∧
        ∀ j (hj : j < newOps.length) (hj2 : j < l.length),
          (newOps.get ⟨j, hj⟩).src = (l.get ⟨j, hj2⟩).1.path ∧
          (((newOps.get ⟨j, hj⟩).note = "" ∧
            (newOps.get ⟨j, hj⟩).dst.name =
              seqDesired st pad pre suffix_str (l.get ⟨j, hj2⟩).2 (l.get ⟨j, hj2⟩).1) ∨
           (newOps.get ⟨j, hj⟩).note = conflictNote
              (seqDesired st pad pre suffix_str (l.get ⟨j, hj2⟩).2 (l.get ⟨j, hj2⟩).1)
              ((newOps.get ⟨j, hj⟩).dst.name)) := by
  intro l
  induction l with
  | nil =>
    intro r plan r2 plan2 _ h
    simp only [seqLoop, Option.some.injEq, Prod.mk.injEq] at h
    obtain ⟨rfl, rfl⟩ := h
    exact ⟨[], by simp, rfl, by intro j hj hj2; exact absurd hj (by simp)⟩
  | cons fi l ih =>
    intro r plan r2 plan2 hval h
    obtain ⟨f, i⟩ := fi
    have hvalf := hval (f, i) (List.mem_cons_self _ l)
    simp only [seqLoop] at h
    cases hv : is_valid_filename (seqDesired st pad pre suffix_str i f) with
    | mk vb verr =>
      rw [hv] at hvalf
      dsimp only at hvalf
      subst hvalf
      rw [hv] at h
      dsimp only at h
      cases hres : r.resolve d (seqDesired st pad pre suffix_str i f) with
      | none => rw [hres] at h; exact Option.noConfusion h
      | some trip =>
        obtain ⟨final, conflict, rr⟩ := trip
        rw [hres] at h
        dsimp only at h
        obtain ⟨restOps, h1, h2, h3⟩ := ih rr _ r2 plan2
          (fun g hg => hval g (List.mem_cons_of_mem _ hg)) h
        refine ⟨⟨f.path, ⟨d, final⟩,
            if conflict = true then
              conflictNote (seqDesired st pad pre suffix_str i f) final
            else ""⟩ :: restOps, ?_, ?_, ?_⟩
        · rw [h1]
          simp [RenamePlan.add_op]
        · simp [h2]
        · intro j hj hj2
          cases j with
          | zero =>
            refine ⟨rfl, ?_⟩
            cases hconf : conflict with
            | false =>
              have hfin := resolve_false_eq r d _ final rr (by rw [← hconf]; exact hres)
              left
              exact ⟨by simp, by simp [hfin]⟩
            | true =>
              right
              simp
          | succ j2 =>
            simp only [List.get_cons_succ]
            exact h3 j2 (Nat.lt_of_succ_lt_succ hj) (Nat.lt_of_succ_lt_succ hj2)

/-- C8: in plan_sequence_rename over files of a single directory, after
sorting by the chosen key (reverse respected), the i-th file (0-based)
is routed to the resolver with the desired name prefix + numberString +
suffix_str + its original extension, where numberString renders
start + i, zero-padded to padding digits when padding > 0 and unpadded
otherwise: the i-th operation's source is the i-th sorted file and
either it received exactly that desired name (empty note) or its
conflict note records that desired name. -/
theorem plan_sequence_names (disk : String → List String) (files : List FileItem)
    (sort_by : SortKey) (reverse : Bool) (start padding : Int) (pre suffix_str : String)
    (opts : RenameOptions) (d : String) (p : RenamePlan) :
    uniqueDirs (files.map (fun f => f.path.dir)) = [d] →
    (∀ i (hi : i < (sort_files files sort_by reverse).length),
      (is_valid_filename (seqDesired start padding pre suffix_str i
        ((sort_files files sort_by reverse).get ⟨i, hi⟩))).1 = true) →
    plan_sequence_rename disk files sort_by reverse start padding pre suffix_str opts =
      some p →
    p.ops.length = (sort_files files sort_by reverse).length ∧
    ∀ i (h1 : i < p.ops.length) (h2 : i < (sort_files files sort_by reverse).length),
      (p.ops.get ⟨i, h1⟩).src = ((sort_files files sort_by reverse).get ⟨i, h2⟩).path ∧
      (((p.ops.get ⟨i, h1⟩).note = "" ∧
        (p.ops.get ⟨i, h1⟩).dst.name = seqDesired start padding pre suffix_str i
          ((sort_files files sort_by reverse).get ⟨i, h2⟩)) ∨
       (p.ops.get ⟨i, h1⟩).note = conflictNote
          (seqDesired start padding pre suffix_str i
            ((sort_files files sort_by reverse).get ⟨i, h2⟩))
          ((p.ops.get ⟨i, h1⟩).dst.name)) := by
  intro hd hvalid hp
  unfold plan_sequence_rename at hp
  by_cases hemp : files.isEmpty = true
  · exfalso
    rw [List.isEmpty_iff] at hemp
    rw [hemp] at hd
    simp [uniqueDirs] at hd
  · rw [if_neg hemp] at hp
    dsimp only at hp
    rw [hd] at hp
    rw [if_neg (by simp)] at hp
    have hval2 : ∀ fi ∈ enumIdx 0 (sort_files files sort_by reverse),
        (is_valid_filename (seqDesired start padding pre suffix_str fi.2 fi.1)).1 = true := by
      intro fi hfi
      obtain ⟨n, hn⟩ := List.mem_iff_get.mp hfi
      have hn2 : (n : Nat) < (sort_files files sort_by reverse).length :=
        lt_of_lt_of_eq n.2 (enumIdx_length 0 _)
      rw [← hn, enumIdx_get 0 _ n.1 n.2 hn2]
      simpa using hvalid n.1 hn2
    cases hloop : seqLoop start padding pre suffix_str ([d].headD "")
        (enumIdx 0 (sort_files files sort_by reverse))
        (freshResolver disk opts ([d].headD "") (files.map (fun f => f.name)))
        ⟨[], [], [], opts⟩ with
    | none => rw [hloop] at hp; exact Option.noConfusion hp
    | some pr =>
      obtain ⟨rr, plan2⟩ := pr
      rw [hloop] at hp
      dsimp only at hp
      have hq := Option.some.inj hp
      subst hq
      obtain ⟨newOps, h1, h2, h3⟩ := seqLoop_names start padding pre suffix_str
        ([d].headD "") (enumIdx 0 (sort_files files sort_by reverse))
        (freshResolver disk opts ([d].headD "") (files.map (fun f => f.name)))
        ⟨[], [], [], opts⟩ rr plan2 hval2 hloop
      have hops : plan2.ops = newOps := by simpa using h1
      have hlen : plan2.ops.length = (sort_files files sort_by reverse).length := by
        rw [hops, h2, enumIdx_length]
      refine ⟨hlen, ?_⟩
      intro i hi1 hi2
      have hiN : i < newOps.length := by rw [← hops]; exact hi1
      have hiE : i < (enumIdx 0 (sort_files files sort_by reverse)).length := by
        rw [enumIdx_length]; exact hi2
      have hget : plan2.ops.get ⟨i, hi1⟩ = newOps.get ⟨i, hiN⟩ := List.get_of_eq hops ⟨i, hi1⟩
      have hmain := h3 i hiN hiE
      rw [enumIdx_get 0 _ i hiE hi2] at hmain
      rw [hget]
      simpa using hmain

/-- C8 witness: two files sorted by mtime receive img_001.txt and
img_002.txt (start 1, padding 3), matching the claim's formula. -/
theorem plan_sequence_names_witness :
    plan_sequence_rename wDiskEmpty [mkItem "d" "b.txt" 2, mkItem "d" "a.txt" 1]
        SortKey.mtime false 1 3 "img_" "" wOpts = some wSeqPlan ∧
    (wSeqPlan.ops.length =
        (sort_files [mkItem "d" "b.txt" 2, mkItem "d" "a.txt" 1] SortKey.mtime false).length ∧
      ∀ i (h1 : i < wSeqPlan.ops.length)
        (h2 : i < (sort_files [mkItem "d" "b.txt" 2, mkItem "d" "a.txt" 1]
            SortKey.mtime false).length),
        (wSeqPlan.ops.get ⟨i, h1⟩).src =
          ((sort_files [mkItem "d" "b.txt" 2, mkItem "d" "a.txt" 1] SortKey.mtime
            false).get ⟨i, h2⟩).path ∧
        (((wSeqPlan.ops.get ⟨i, h1⟩).note = "" ∧
          (wSeqPlan.ops.get ⟨i, h1⟩).dst.name = seqDesired 1 3 "img_" "" i
            ((sort_files [mkItem "d" "b.txt" 2, mkItem "d" "a.txt" 1] SortKey.mtime
              false).get ⟨i, h2⟩)) ∨
         (wSeqPlan.ops.get ⟨i, h1⟩).note = conflictNote
            (seqDesired 1 3 "img_" "" i
              ((sort_files [mkItem "d" "b.txt" 2, mkItem "d" "a.txt" 1] SortKey.mtime
                false).get ⟨i, h2⟩))
            ((wSeqPlan.ops.get ⟨i, h1⟩).dst.name))) :=
  ⟨by decide,
   plan_sequence_names wDiskEmpty [mkItem "d" "b.txt" 2, mkItem "d" "a.txt" 1]
     SortKey.mtime false 1 3 "img_" "" wOpts "d" wSeqPlan
     (by decide) (by decide) (by decide)⟩

/-- C9 (code_bug evidence): the case-insensitive branch of replace_text
hands the replacement string to re.sub, which interprets it as a
replacement template instead of inserting it literally: with
new = backslash-q the call raises re.error (none), and with
new = backslash-n it inserts a newline character, while the
case-sensitive branch of the same function inserts the same two
characters literally; empty old still returns the text unchanged. -/
theorem replace_text_template_divergence :
    replace_text "axa" "x" (String.mk ['\\', 'q']) false = none ∧
    replace_text "axa" "x" (String.mk ['\\', 'n']) false =
      some (String.mk ['a', Char.ofNat 10, 'a']) ∧
    replace_text "axa" "x" (String.mk ['\\', 'n']) true =
      some (String.mk ['a', '\\', 'n', 'a']) ∧
    replace_text "axa" "" (String.mk ['\\', 'q']) false = some "axa" := by decide
